import Mathlib

/-!
Verification of the command-center chord engine
(`src/lib/commandCenter/commands.ts`).

The embedding below translates the source file's data model and logic into
Lean. JavaScript strings become `String`, arrays become `List`, `Map`s
become association lists (JS `Map` preserves insertion order; `set` on an
existing key keeps its position). Object identity (`===`) is modelled by a
`cid : Nat` field: every distinct runtime object carries a distinct `cid`.
A command's `callback` is modelled by recording its `cid` in an invocation
log. The two debounced timers (the 2000 ms inactivity reset and the 200 ms
resolution window) are modelled by pending flags plus explicit fire steps,
following the debounce contract (re-arm supersedes a pending fire;
`immediate` runs the action now and cancels the timer).
-/

/-- JS `s.includes(search)`: `search` occurs in `s` as a contiguous
substring. -/
def jsIncludes (s search : String) : Bool :=
  decide (search.toList <:+: s.toList)

/-- JS `arr.join('')` on a list of numbers: decimal representations
concatenated. -/
def joinNums (l : List Nat) : String :=
  String.join (l.map toString)

/-- JS `arr.join('+')` on a list of strings (used by `hasDisputing`). -/
def joinPlus (keys : List String) : String :=
  String.intercalate "+" keys

/-- JS `key.toUpperCase().charCodeAt(0)`: the code of the first character
of the uppercased key label (ASCII case mapping; the source only uses
ASCII key labels). A chorded command with an empty key label is a spec
precondition violation (JS would produce NaN); we return 0 there. -/
def upperFirstCharCode (key : String) : Nat :=
  match key.toList with
  | [] => 0
  | c :: _ => (Char.toUpper c).toNat

/-- `BaseCommand` from the source, minus the display-only fields
(`label`, `icon`, `group`) which carry no matching semantics. `cid` models
JS object identity. The `callback` is modelled by logging `cid`. -/
structure BaseCommand where
  cid : Nat
  disabled : Bool
  forceEnable : Bool
deriving DecidableEq, Repr

/-- `KeyedCommand` from the source: the base fields plus the chord data.
`ctrl` is the ctrl-class modifier (Meta on Mac, Ctrl elsewhere). The
optional JS booleans (`undefined` or `false`, both falsy) are modelled as
`Bool` with `false` meaning "not declared". -/
structure KeyedCommand where
  cid : Nat
  keys : List String
  ctrl : Bool
  shift : Bool
  alt : Bool
  disabled : Bool
  forceEnable : Bool
deriving DecidableEq, Repr

/-- `Command = KeyedCommand | BaseCommand`; `isKeyedCommand` is the
`'keys' in command` test, here the constructor tag. -/
inductive Command where
  | base (b : BaseCommand)
  | keyed (k : KeyedCommand)
deriving DecidableEq, Repr

/-- The identity of a command object (models JS `===`). -/
def Command.cidOf : Command → Nat
  | .base b => b.cid
  | .keyed k => k.cid

/-- A keydown event: `keyCode`, the four physical modifier states, and the
tag name of the event target. -/
structure KeyEvent where
  keyCode : Nat
  metaKey : Bool
  ctrlKey : Bool
  shiftKey : Bool
  altKey : Bool
  targetTag : String
deriving DecidableEq, Repr

/-- `isInputEvent`: the event target is a text-entry control. -/
def isInputEvent (event : KeyEvent) : Bool :=
  ["INPUT", "TEXTAREA", "SELECT"].contains event.targetTag

/-- The `[meta, shift, alt].filter(Boolean).length` expression that the
source writes inline both in `getCommandRank` and in
`getHighestPriorityCommand`. -/
def modifierCount (command : KeyedCommand) : Nat :=
  ([command.ctrl, command.shift, command.alt].filter id).length

/-- `getCommandRank`: keys are worth 1 point, modifiers 10. -/
def getCommandRank (command : KeyedCommand) : Nat :=
  command.keys.length + modifierCount command * 10

/-- `hasDisputing`: some other registered command (object identity
excluded, non-keyed commands excluded) whose `'+'`-joined key string
contains this command's `'+'`-joined key string or vice versa, with
`rank(command) ≤ rank(other)`. -/
def hasDisputing (command : KeyedCommand) (allCommands : List Command) : Bool :=
  allCommands.any fun otherCommand =>
    if Command.cidOf otherCommand == command.cid then false
    else
      match otherCommand with
      | .base _ => false
      | .keyed other =>
        let keysString := joinPlus command.keys
        let otherKeysString := joinPlus other.keys
        (jsIncludes keysString otherKeysString || jsIncludes otherKeysString keysString)
          && decide (getCommandRank command ≤ getCommandRank other)

/-- `getHighestPriorityCommand` over the captured `validCommands` list:
`undefined` on empty input becomes `none`. `Math.max(...)` over a
non-empty list of scores is `foldr max 0` (all scores are naturals, and
both non-singleton uses are on non-empty lists). -/
def getHighestPriorityCommand (validCommands : List KeyedCommand) : Option KeyedCommand :=
  if validCommands.length = 0 then none
  else if validCommands.length = 1 then validCommands.head?
  else
    let rankedCommands := validCommands.map fun command => (command, getCommandRank command)
    let highestScore := (rankedCommands.map fun p => p.2).foldr max 0
    let highestScoreCommands := rankedCommands.filter fun p => p.2 == highestScore
    if highestScoreCommands.length = 1 then highestScoreCommands.head?.map fun p => p.1
    else
      let mostModifiers := (highestScoreCommands.map fun p => modifierCount p.1).foldr max 0
      let mostModifiersCommands :=
        highestScoreCommands.filter fun p => modifierCount p.1 == mostModifiers
      mostModifiersCommands.head?.map fun p => p.1

/-- The mutable closure state of one built keydown handler:
`recentKeyCodes` and `validCommands` are the two arrays; the two flags
model whether the corresponding debounced timer (`reset`, 2000 ms /
`rankAndExecute`, 200 ms) has a pending fire. -/
structure HandlerState where
  recentKeyCodes : List Nat
  validCommands : List KeyedCommand
  resolutionPending : Bool
  resetPending : Bool
deriving DecidableEq, Repr

/-- The state every freshly built handler closure starts in: both arrays
empty, no timer pending. -/
def initialState : HandlerState :=
  ⟨[], [], false, false⟩

/-- Eligibility guard of the keydown loop: skip unless `forceEnable`, or
(not `disabled` and globally enabled and not typed into a text control). -/
def eligible (command : KeyedCommand) (enabled : Bool) (event : KeyEvent) : Bool :=
  command.forceEnable || (!command.disabled && (enabled && !isInputEvent event))

/-- The match guard of the keydown loop: the concatenated key-code history
contains the command's concatenated key codes, and each declared modifier
is physically held (ctrl-class resolves to Meta on Mac, Ctrl otherwise). -/
def commandMatches (isMacF : Bool) (recentKeyCodes : List Nat) (command : KeyedCommand)
    (event : KeyEvent) : Bool :=
  let isMetaPressed := if command.ctrl then (if isMacF then event.metaKey else event.ctrlKey)
    else true
  let isShiftPressed := if command.shift then event.shiftKey else true
  let isAltPressed := if command.alt then event.altKey else true
  let commandKeyCodes := command.keys.map upperFirstCharCode
  let allKeysPressed := jsIncludes (joinNums recentKeyCodes) (joinNums commandKeyCodes)
  allKeysPressed && isMetaPressed && isShiftPressed && isAltPressed

/-- `execute(command)`: a disputing match is queued and (re)arms the
200 ms resolution timer; a non-disputing match invokes the callback now
and flushes the reset action (`reset.immediate()` clears both arrays and
cancels the inactivity timer; the resolution timer is NOT cancelled).
Returns the new state and the cids of callbacks invoked. -/
def execute (commandsArr : List Command) (command : KeyedCommand) (s : HandlerState) :
    HandlerState × List Nat :=
  if hasDisputing command commandsArr then
    ({ s with validCommands := s.validCommands ++ [command], resolutionPending := true }, [])
  else
    ({ s with recentKeyCodes := [], validCommands := [], resetPending := false }, [command.cid])

/-- One iteration of the `for (const command of commandsArr)` loop. The
loop reads the live closure state, so a non-disputing match that clears
`recentKeyCodes` affects the commands checked after it in the same event. -/
def stepCommand (commandsArr : List Command) (enabled isMacF : Bool) (event : KeyEvent)
    (acc : HandlerState × List Nat) (cmd : Command) : HandlerState × List Nat :=
  match cmd with
  | .base _ => acc
  | .keyed command =>
    if eligible command enabled event then
      if commandMatches isMacF acc.1.recentKeyCodes command event then
        let r := execute commandsArr command acc.1
        (r.1, acc.2 ++ r.2)
      else acc
    else acc

/-- The handler body for one keydown event: push the key code, (re)arm the
inactivity timer, then run the full command loop. -/
def processKeydown (commandsArr : List Command) (enabled isMacF : Bool) (s : HandlerState)
    (event : KeyEvent) : HandlerState × List Nat :=
  let s1 := { s with recentKeyCodes := s.recentKeyCodes ++ [event.keyCode], resetPending := true }
  commandsArr.foldl (stepCommand commandsArr enabled isMacF event) (s1, [])

/-- The 200 ms resolution timer firing. The debounced body is
`const command = getHighestPriorityCommand(); command.callback();
reset.immediate();` — when `getHighestPriorityCommand` returns
`undefined` (empty candidate list), `command.callback()` throws a
TypeError: no callback runs, the arrays are NOT cleared, and the fault
flag of the result is set. On success the winner's callback runs and
`reset.immediate()` clears everything. -/
def fireResolution (s : HandlerState) : HandlerState × List Nat × Bool :=
  if s.resolutionPending then
    match getHighestPriorityCommand s.validCommands with
    | none => ({ s with resolutionPending := false }, [], true)
    | some command => (⟨[], [], false, false⟩, [command.cid], false)
  else (s, [], false)

/-- The 2000 ms inactivity timer firing: clears both arrays. It does not
touch the resolution timer. -/
def fireInactivity (s : HandlerState) : HandlerState :=
  if s.resetPending then ⟨[], [], s.resolutionPending, false⟩ else s

/-- An observable step against one built handler: a keydown event, the
resolution window elapsing, or the inactivity window elapsing. -/
inductive MStep where
  | key (event : KeyEvent)
  | resolve
  | inactivity
deriving Repr

/-- One step of the handler's event loop, threading the state, the
cumulative callback log and the cumulative fault flag. -/
def runStep (commandsArr : List Command) (enabled isMacF : Bool)
    (acc : HandlerState × List Nat × Bool) (st : MStep) : HandlerState × List Nat × Bool :=
  match st with
  | .key event =>
    let r := processKeydown commandsArr enabled isMacF acc.1 event
    (r.1, acc.2.1 ++ r.2, acc.2.2)
  | .resolve =>
    let r := fireResolution acc.1
    (r.1, acc.2.1 ++ r.2.1, acc.2.2 || r.2.2)
  | .inactivity => (fireInactivity acc.1, acc.2.1, acc.2.2)

/-- Run a step sequence against one built handler, from the fresh closure
state. -/
def runSteps (commandsArr : List Command) (enabled isMacF : Bool) (steps : List MStep) :
    HandlerState × List Nat × Bool :=
  steps.foldl (runStep commandsArr enabled isMacF) (initialState, [], false)

/-- A JS `Map` as an insertion-ordered association list with unique keys.
`set` keeps the position of an existing key, else appends. -/
def mapSet {α : Type} (m : List (Nat × α)) (k : Nat) (v : α) : List (Nat × α) :=
  if m.any fun p => p.1 == k then m.map fun p => if p.1 == k then (k, v) else p
  else m ++ [(k, v)]

/-- JS `Map.delete`. -/
def mapDelete {α : Type} (m : List (Nat × α)) (k : Nat) : List (Nat × α) :=
  m.filter fun p => p.1 != k

/-- The `commands` derived store: `Array.from($commandMap.values()).flat()`
— registrant-insertion order, within-list order preserved. -/
def flattenMap (m : List (Nat × List Command)) : List Command :=
  (m.map fun p => p.2).flatten

/-- The `commandsEnabled` derived store:
`Array.from($disabledMap.values()).every(d => !d)`. -/
def commandsEnabled (disabledMap : List (Nat × Bool)) : Bool :=
  (disabledMap.map fun p => p.2).all fun disabled => !disabled

/-- The `commandCenterKeyDownHandler` derived store body, evaluated at the
current `commandMap` and `commandsEnabled` values (the reactive store
rebuilds it whenever either changes): it snapshots the flattened command
list and creates fresh closure state. -/
def buildHandler (commandMap : List (Nat × List Command)) (_enabled : Bool) :
    List Command × HandlerState :=
  (flattenMap commandMap, initialState)

/-! ## Definitions following the spec's words (for refinement claims) -/

/-- Spec glossary, "Signature": the concatenation of a command's key
labels' uppercase (first) character codes, in declared order. -/
def specSignature (command : KeyedCommand) : String :=
  joinNums (command.keys.map upperFirstCharCode)

/-- The dispute predicate exactly as the spec's words define it (claim
C3): another registered chorded command, distinct identity, whose
signature contains or is contained in this one's, with
`rank(command) ≤ rank(other)`. -/
def specDisputes (command : KeyedCommand) (allCommands : List Command) : Bool :=
  allCommands.any fun otherCommand =>
    match otherCommand with
    | .base _ => false
    | .keyed other =>
      (other.cid != command.cid)
        && (jsIncludes (specSignature other) (specSignature command)
          || jsIncludes (specSignature command) (specSignature other))
        && decide (getCommandRank command ≤ getCommandRank other)

/-- Spec-worded modifier count: the number of declared-true modifiers
among ctrl, shift, alt. -/
def modifierCountSpec (command : KeyedCommand) : Nat :=
  [command.ctrl, command.shift, command.alt].count true

/-- Spec-worded rank: number of keys plus ten times the modifier count. -/
def rankSpec (command : KeyedCommand) : Nat :=
  command.keys.length + 10 * modifierCountSpec command

/-- `winner(candidates)` exactly as the spec's words describe it: a single
candidate is returned directly; otherwise restrict to maximal rank, then
(on a tie) to maximal modifier count, and return the first member in
original insertion order. -/
def winnerSpec (candidates : List KeyedCommand) : Option KeyedCommand :=
  if candidates.length = 1 then candidates.head?
  else
    let maxRank := (candidates.map fun c => rankSpec c).foldr max 0
    let top := candidates.filter fun c => rankSpec c == maxRank
    if top.length = 1 then top.head?
    else
      let maxMods := (top.map fun c => modifierCountSpec c).foldr max 0
      (top.filter fun c => modifierCountSpec c == maxMods).head?

/-! ## Concrete commands, events and registries used by the scenarios -/

/-- Command A of the dispute-priority scenario: keys g then d, rank 2. -/
def cmdA : KeyedCommand :=
  ⟨0, ["g", "d"], false, false, false, false, false⟩

/-- Command B of the dispute-priority scenario: single key d, rank 1. -/
def cmdB : KeyedCommand :=
  ⟨1, ["d"], false, false, false, false, false⟩

/-- A disabled, non-force-enabled chorded command. -/
def cmdDis : KeyedCommand :=
  ⟨5, ["x"], false, false, false, true, false⟩

/-- Keydown of the letter g (keyCode 71) on a plain element. -/
def evG : KeyEvent :=
  ⟨71, false, false, false, false, "BODY"⟩

/-- Keydown of the letter d (keyCode 68) on a plain element. -/
def evD : KeyEvent :=
  ⟨68, false, false, false, false, "BODY"⟩

/-- Registry with A before B in the flattened view. -/
def cfgAB : List Command :=
  [.keyed cmdA, .keyed cmdB]

/-- Registry with B before A in the flattened view. -/
def cfgBA : List Command :=
  [.keyed cmdB, .keyed cmdA]

/-- Counterexample command for C3: single key label b (signature "66"). -/
def cmdSigB : KeyedCommand :=
  ⟨0, ["b"], false, false, false, false, false⟩

/-- Counterexample command for C3: keys v, e (signature "8669", which
contains "66" across the digit boundary, while "v+e" does not contain
"b"). -/
def cmdSigVE : KeyedCommand :=
  ⟨1, ["v", "e"], false, false, false, false, false⟩

/-- Registry for the C3 counterexample. -/
def regSig : List Command :=
  [.keyed cmdSigB, .keyed cmdSigVE]

/-- Proof scaffolding: a cid that may legitimately appear in the callback
log of a handler built over `commandsArr` with the given global-enabled
flag — it belongs to a registered chorded command that is eligible for at
least one event. -/
def okLog (commandsArr : List Command) (enabled : Bool) (x : Nat) : Prop :=
  ∃ d : KeyedCommand, Command.keyed d ∈ commandsArr ∧ d.cid = x ∧
    ∃ e : KeyEvent, eligible d enabled e = true

/-- Proof scaffolding: every queued candidate is a registered chorded
command that is eligible for at least one event. -/
def vcOk (commandsArr : List Command) (enabled : Bool) (s : HandlerState) : Prop :=
  ∀ d ∈ s.validCommands, Command.keyed d ∈ commandsArr ∧
    ∃ e : KeyEvent, eligible d enabled e = true

/-! ## Helper lemmas -/

/-- A list whose head option is `some x` contains `x`. -/
theorem headSomeMem {α : Type} {l : List α} {x : α} (h : l.head? = some x) : x ∈ l := by
  cases l with
  | nil => exact absurd h (by simp)
  | cons a t =>
    simp only [List.head?_cons, Option.some.injEq] at h
    subst h
    exact List.mem_cons_self a t

/-- `foldr max 0` of a non-empty list of naturals is attained by one of
its elements (this is the shape `Math.max(...scores)` takes in the
embedding). -/
theorem foldrMaxMem (l : List Nat) (h : l ≠ []) : l.foldr max 0 ∈ l := by
  induction l with
  | nil => exact absurd rfl h
  | cons x t ih =>
    cases t with
    | nil => simp
    | cons y s =>
      have ht : (y :: s).foldr max 0 ∈ y :: s := ih (by simp)
      rw [List.foldr_cons]
      rcases Nat.le_total x ((y :: s).foldr max 0) with hm | hm
      · rw [Nat.max_eq_right hm]
        exact List.mem_cons_of_mem x ht
      · rw [Nat.max_eq_left hm]
        exact List.mem_cons_self x (y :: s)

/-- Filtering a non-empty list for the elements attaining the maximum of
`f` never yields the empty list. -/
theorem filterMaxNeNil {α : Type} (f : α → Nat) (l : List α) (h : l ≠ []) :
    l.filter (fun x => f x == (l.map f).foldr max 0) ≠ [] := by
  have hmap : l.map f ≠ [] := by simpa using h
  obtain ⟨x, hx, hfx⟩ := List.mem_map.mp (foldrMaxMem (l.map f) hmap)
  exact List.ne_nil_of_mem (List.mem_filter.mpr ⟨hx, by simp [hfx]⟩)

/-- `getHighestPriorityCommand` only ever returns a member of its input
list. -/
theorem memOfGhpc {candidates : List KeyedCommand} {c : KeyedCommand}
    (h : getHighestPriorityCommand candidates = some c) : c ∈ candidates := by
  unfold getHighestPriorityCommand at h
  split at h
  · exact absurd h (by simp)
  · split at h
    · exact headSomeMem h
    · dsimp only at h
      split at h
      · obtain ⟨p, hp, hpc⟩ := Option.map_eq_some'.mp h
        have hmem := List.mem_of_mem_filter (headSomeMem hp)
        obtain ⟨d, hd, hdp⟩ := List.mem_map.mp hmem
        rw [← hdp] at hpc
        dsimp only at hpc
        subst hpc
        exact hd
      · obtain ⟨p, hp, hpc⟩ := Option.map_eq_some'.mp h
        have hmem :=
          List.mem_of_mem_filter (List.mem_of_mem_filter (headSomeMem hp))
        obtain ⟨d, hd, hdp⟩ := List.mem_map.mp hmem
        rw [← hdp] at hpc
        dsimp only at hpc
        subst hpc
        exact hd

/-- On a non-empty candidate list, `getHighestPriorityCommand` never
returns `undefined`. -/
theorem ghpcNeNone {candidates : List KeyedCommand} (h : candidates ≠ []) :
    getHighestPriorityCommand candidates ≠ none := by
  unfold getHighestPriorityCommand
  split
  · next h0 => exact absurd (List.length_eq_zero.mp h0) h
  · split
    · intro hnone
      rw [Option.eq_none_iff_forall_not_mem] at hnone
      cases candidates with
      | nil => exact h rfl
      | cons a t => exact hnone a (by simp)
    · next h0 h1 =>
      dsimp only
      split
      · intro hnone
        have hne := filterMaxNeNil (fun p => p.2)
          (candidates.map fun command => (command, getCommandRank command))
          (by simpa using h)
        rw [Option.map_eq_none'] at hnone
        cases hfe : (candidates.map fun command => (command, getCommandRank command)).filter
            (fun p => p.2 == ((candidates.map fun command =>
              (command, getCommandRank command)).map (fun p => p.2)).foldr max 0) with
        | nil => exact hne hfe
        | cons q qs => rw [hfe] at hnone; simp at hnone
      · intro hnone
        have hne1 := filterMaxNeNil (fun p => p.2)
          (candidates.map fun command => (command, getCommandRank command))
          (by simpa using h)
        have hne2 := filterMaxNeNil (fun p => modifierCount p.1)
          ((candidates.map fun command => (command, getCommandRank command)).filter
            (fun p => p.2 == ((candidates.map fun command =>
              (command, getCommandRank command)).map (fun p => p.2)).foldr max 0))
          hne1
        rw [Option.map_eq_none'] at hnone
        cases hfe : ((candidates.map fun command => (command, getCommandRank command)).filter
            (fun p => p.2 == ((candidates.map fun command =>
              (command, getCommandRank command)).map (fun p => p.2)).foldr max 0)).filter
              (fun p => modifierCount p.1 ==
                (((candidates.map fun command => (command, getCommandRank command)).filter
                  (fun p => p.2 == ((candidates.map fun command =>
                    (command, getCommandRank command)).map (fun p => p.2)).foldr max 0)).map
                      (fun p => modifierCount p.1)).foldr max 0) with
        | nil => exact hne2 hfe
        | cons q qs => rw [hfe] at hnone; simp at hnone

/-- On a non-empty candidate list, `getHighestPriorityCommand` returns
`some` member of the list. -/
theorem ghpcSomeOfNeNil {candidates : List KeyedCommand} (h : candidates ≠ []) :
    ∃ c ∈ candidates, getHighestPriorityCommand candidates = some c := by
  cases hc : getHighestPriorityCommand candidates with
  | none => exact absurd hc (ghpcNeNone h)
  | some c => exact ⟨c, memOfGhpc hc, rfl⟩

/-- One loop iteration preserves the log/candidate invariant. -/
theorem stepCommandOk (commandsArr : List Command) (enabled isMacF : Bool) (event : KeyEvent)
    (acc : HandlerState × List Nat) (cmd : Command) (hcmd : cmd ∈ commandsArr)
    (hlog : ∀ x ∈ acc.2, okLog commandsArr enabled x) (hvc : vcOk commandsArr enabled acc.1) :
    (∀ x ∈ (stepCommand commandsArr enabled isMacF event acc cmd).2,
      okLog commandsArr enabled x) ∧
      vcOk commandsArr enabled (stepCommand commandsArr enabled isMacF event acc cmd).1 := by
  cases cmd with
  | base b => exact ⟨hlog, hvc⟩
  | keyed command =>
    have hstep : stepCommand commandsArr enabled isMacF event acc (.keyed command) =
        if eligible command enabled event then
          if commandMatches isMacF acc.1.recentKeyCodes command event then
            ((execute commandsArr command acc.1).1, acc.2 ++ (execute commandsArr command acc.1).2)
          else acc
        else acc := rfl
    by_cases he : eligible command enabled event = true
    · by_cases hm : commandMatches isMacF acc.1.recentKeyCodes command event = true
      · rw [hstep, if_pos he, if_pos hm]
        by_cases hd : hasDisputing command commandsArr = true
        · have hex : execute commandsArr command acc.1 =
              (⟨acc.1.recentKeyCodes, acc.1.validCommands ++ [command], true,
                acc.1.resetPending⟩, []) := by
            unfold execute
            rw [if_pos hd]
          rw [hex]
          constructor
          · intro x hx
            rcases List.mem_append.mp hx with hin | hin
            · exact hlog x hin
            · simp at hin
          · intro d hdmem
            rcases List.mem_append.mp hdmem with hin | hin
            · exact hvc d hin
            · rw [List.mem_singleton] at hin
              subst hin
              exact ⟨hcmd, event, he⟩
        · have hex : execute commandsArr command acc.1 =
              (⟨[], [], acc.1.resolutionPending, false⟩, [command.cid]) := by
            unfold execute
            rw [if_neg hd]
          rw [hex]
          constructor
          · intro x hx
            rcases List.mem_append.mp hx with hin | hin
            · exact hlog x hin
            · rw [List.mem_singleton] at hin
              subst hin
              exact ⟨command, hcmd, rfl, event, he⟩
          · intro d hdmem
            simp at hdmem
      · rw [hstep, if_pos he, if_neg hm]
        exact ⟨hlog, hvc⟩
    · rw [hstep, if_neg he]
      exact ⟨hlog, hvc⟩

/-- The whole command loop preserves the log/candidate invariant. -/
theorem foldlStepCommandOk {commandsArr : List Command} {enabled isMacF : Bool}
    {event : KeyEvent} :
    ∀ (l : List Command) (acc : HandlerState × List Nat), (∀ cmd ∈ l, cmd ∈ commandsArr) →
      (∀ x ∈ acc.2, okLog commandsArr enabled x) → vcOk commandsArr enabled acc.1 →
      (∀ x ∈ (l.foldl (stepCommand commandsArr enabled isMacF event) acc).2,
        okLog commandsArr enabled x) ∧
        vcOk commandsArr enabled (l.foldl (stepCommand commandsArr enabled isMacF event) acc).1
  | [], _, _, hlog, hvc => ⟨hlog, hvc⟩
  | cmd :: t, acc, hsub, hlog, hvc => by
    have h1 := stepCommandOk commandsArr enabled isMacF event acc cmd
      (hsub cmd (List.mem_cons_self cmd t)) hlog hvc
    exact foldlStepCommandOk t _ (fun c hc => hsub c (List.mem_cons_of_mem cmd hc)) h1.1 h1.2

/-- Processing one keydown event preserves the log/candidate invariant. -/
theorem processKeydownOk (commandsArr : List Command) (enabled isMacF : Bool)
    (event : KeyEvent) (s : HandlerState) (hvc : vcOk commandsArr enabled s) :
    (∀ x ∈ (processKeydown commandsArr enabled isMacF s event).2,
      okLog commandsArr enabled x) ∧
      vcOk commandsArr enabled (processKeydown commandsArr enabled isMacF s event).1 := by
  unfold processKeydown
  exact foldlStepCommandOk commandsArr _ (fun c hc => hc) (by simp) hvc

/-- A resolution-timer fire preserves the log/candidate invariant. -/
theorem fireResolutionOk {commandsArr : List Command} {enabled : Bool} {s : HandlerState}
    (hvc : vcOk commandsArr enabled s) :
    (∀ x ∈ (fireResolution s).2.1, okLog commandsArr enabled x) ∧
      vcOk commandsArr enabled (fireResolution s).1 := by
  unfold fireResolution
  split
  · cases hg : getHighestPriorityCommand s.validCommands with
    | none =>
      refine ⟨by simp, ?_⟩
      intro d hdmem
      exact hvc d hdmem
    | some c =>
      constructor
      · intro x hx
        rw [List.mem_singleton] at hx
        subst hx
        obtain ⟨hin, e, he⟩ := hvc c (memOfGhpc hg)
        exact ⟨c, hin, rfl, e, he⟩
      · intro d hdmem
        simp at hdmem
  · exact ⟨by simp, hvc⟩

/-- An inactivity-timer fire preserves the log/candidate invariant. -/
theorem fireInactivityOk {commandsArr : List Command} {enabled : Bool} {s : HandlerState}
    (hvc : vcOk commandsArr enabled s) :
    vcOk commandsArr enabled (fireInactivity s) := by
  unfold fireInactivity
  split
  · intro d hdmem
    simp at hdmem
  · exact hvc

/-- Every cid in the callback log of any step sequence belongs to a
registered chorded command that was eligible for at least one event. -/
theorem foldlRunStepOk {commandsArr : List Command} {enabled isMacF : Bool} :
    ∀ (steps : List MStep) (acc : HandlerState × List Nat × Bool),
      (∀ x ∈ acc.2.1, okLog commandsArr enabled x) → vcOk commandsArr enabled acc.1 →
      (∀ x ∈ (steps.foldl (runStep commandsArr enabled isMacF) acc).2.1,
        okLog commandsArr enabled x) ∧
        vcOk commandsArr enabled (steps.foldl (runStep commandsArr enabled isMacF) acc).1
  | [], _, hlog, hvc => ⟨hlog, hvc⟩
  | st :: t, acc, hlog, hvc => by
    refine foldlRunStepOk t _ ?_ ?_
    case _ =>
      cases st with
      | key event =>
        intro x hx
        simp only [runStep] at hx
        rcases List.mem_append.mp hx with hin | hin
        · exact hlog x hin
        · exact (processKeydownOk commandsArr enabled isMacF event acc.1 hvc).1 x hin
      | resolve =>
        intro x hx
        simp only [runStep] at hx
        rcases List.mem_append.mp hx with hin | hin
        · exact hlog x hin
        · exact (fireResolutionOk hvc).1 x hin
      | inactivity =>
        intro x hx
        simp only [runStep] at hx
        exact hlog x hx
    case _ =>
      cases st with
      | key event => exact (processKeydownOk commandsArr enabled isMacF event acc.1 hvc).2
      | resolve => exact (fireResolutionOk hvc).2
      | inactivity => exact fireInactivityOk hvc

/-- Invariant instantiated at the fresh handler state. -/
theorem runStepsOk (commandsArr : List Command) (enabled isMacF : Bool) (steps : List MStep) :
    ∀ x ∈ (runSteps commandsArr enabled isMacF steps).2.1, okLog commandsArr enabled x := by
  refine (foldlRunStepOk steps (initialState, [], false) (by simp) ?_).1
  intro d hdmem
  simp [initialState] at hdmem

example : jsIncludes "7168" "68" = true := by decide
example : jsIncludes "71" "7168" = false := by decide
example : upperFirstCharCode "g" = 71 := by decide
example : getCommandRank cmdA = 2 ∧ getCommandRank cmdB = 1 := by decide
example : hasDisputing cmdB cfgBA = true ∧ hasDisputing cmdA cfgBA = false := by decide
example : (runSteps cfgAB true false [.key evG, .key evD, .resolve]).2.1 = [0] := by decide
example : (runSteps cfgBA true false [.key evG, .key evD, .resolve]).2.1 = [0] := by decide
example : (runSteps cfgBA true false [.key evG, .key evD, .resolve]).2.2 = true := by decide
example : hasDisputing cmdSigB regSig = false ∧ specDisputes cmdSigB regSig = true := by decide

/-- The spec-worded modifier count agrees with the code's inline
`[meta, shift, alt].filter(Boolean).length` expression. -/
theorem modifierCountSpecEq (c : KeyedCommand) : modifierCountSpec c = modifierCount c := by
  rcases c with ⟨cid, keys, ctrl, shift, alt, dis, fe⟩
  cases ctrl <;> cases shift <;> cases alt <;> rfl

/-- The spec-worded rank agrees with `getCommandRank`. -/
theorem rankSpecEq (c : KeyedCommand) : rankSpec c = getCommandRank c := by
  unfold rankSpec getCommandRank
  rw [modifierCountSpecEq, Nat.mul_comm]

/-! ## Claim theorems -/

/-- C1 (code-bug evidence): a reachable state exists in which the 200 ms
resolution timer is pending over an empty candidate list — press g then d
against a registry holding B (keys [d]) before A (keys [g, d]): B's
disputing match arms the resolution timer, then A's non-disputing match
executes synchronously and clears the candidate list. The claim (and the
spec) say the subsequent timer fire is a silent no-op that raises no
fault; the code instead evaluates `command.callback()` with `command`
undefined, raising a TypeError (the fault flag), and invokes no
callback. -/
theorem c1_empty_fire_faults :
    (runSteps cfgBA true false [.key evG, .key evD]).1.validCommands = [] ∧
    (runSteps cfgBA true false [.key evG, .key evD]).1.resolutionPending = true ∧
    (fireResolution (runSteps cfgBA true false [.key evG, .key evD]).1).2.1 = [] ∧
    (fireResolution (runSteps cfgBA true false [.key evG, .key evD]).1).2.2 = true ∧
    (runSteps cfgBA true false [.key evG, .key evD, .resolve]).2.2 = true := by
  decide

/-- C2: with chorded command A = [g, d] (rank 2) and B = [d] (rank 1)
registered, no modifiers on either, pressing g then d and letting the
resolution window elapse invokes exactly A's callback and never B's, for
both orderings of A and B in the flattened view. -/
theorem c2_chord_priority :
    ((runSteps cfgAB true false [.key evG, .key evD, .resolve]).2.1 = [cmdA.cid] ∧
      cmdB.cid ∉ (runSteps cfgAB true false [.key evG, .key evD, .resolve]).2.1) ∧
    ((runSteps cfgBA true false [.key evG, .key evD, .resolve]).2.1 = [cmdA.cid] ∧
      cmdB.cid ∉ (runSteps cfgBA true false [.key evG, .key evD, .resolve]).2.1) := by
  decide

/-- C3 (counterexample): the claim says dispute detection compares the
uppercase-char-code signatures. The code compares the '+'-joined raw key
labels. With C = [b] (signature "66", key string "b") and D = [v, e]
(signature "8669", key string "v+e") and rank C ≤ rank D, the signature
"66" is a substring of "8669", so the claimed predicate is true, but the
code's `hasDisputing` is false: the claimed equivalence fails at this
input. -/
theorem c3_counterexample :
    hasDisputing cmdSigB regSig = false ∧ specDisputes cmdSigB regSig = true := by
  decide

/-- C3 (amended): `hasDisputing(command)` is true iff there exists another
registered chorded command (distinct object identity) whose '+'-joined
key-label string contains this command's '+'-joined key-label string as a
substring, or vice versa, and `rank(command) ≤ rank(other)`. -/
theorem c3_amended_disputes_iff (command : KeyedCommand) (allCommands : List Command) :
    hasDisputing command allCommands = true ↔
      ∃ other : KeyedCommand, Command.keyed other ∈ allCommands ∧ other.cid ≠ command.cid ∧
        (jsIncludes (joinPlus command.keys) (joinPlus other.keys) = true ∨
          jsIncludes (joinPlus other.keys) (joinPlus command.keys) = true) ∧
        getCommandRank command ≤ getCommandRank other := by
  unfold hasDisputing
  rw [List.any_eq_true]
  constructor
  · rintro ⟨x, hx, hpx⟩
    cases x with
    | base b => simp at hpx
    | keyed other =>
      by_cases hc : other.cid = command.cid
      · rw [if_pos (show (Command.cidOf (Command.keyed other) == command.cid) = true by
          simp [Command.cidOf, hc])] at hpx
        exact absurd hpx (by simp)
      · rw [if_neg (by simp [Command.cidOf, hc])] at hpx
        simp only [Bool.and_eq_true, Bool.or_eq_true, decide_eq_true_eq] at hpx
        exact ⟨other, hx, hc, hpx.1, hpx.2⟩
  · rintro ⟨other, ho, hc, hor, hrank⟩
    refine ⟨Command.keyed other, ho, ?_⟩
    rw [if_neg (by simp [Command.cidOf, hc])]
    simp only [Bool.and_eq_true, Bool.or_eq_true, decide_eq_true_eq]
    exact ⟨hor, hrank⟩

/-- C3 witness: the amended equivalence evaluated at a concrete disputing
pair (B = [d] against A = [g, d]). -/
theorem c3_amended_witness : hasDisputing cmdB cfgAB = true :=
  (c3_amended_disputes_iff cmdB cfgAB).mpr
    ⟨cmdA, by decide, by decide, Or.inr (by decide), by decide⟩

/-- C5: for an eligible chorded command, the handler's match guard holds
iff the digit-string concatenation of the whole key-code history contains
the command's signature (the concatenation of each key label's uppercase
first character's code, in declared order) as a contiguous substring, and
every declared modifier is physically held (ctrl-class resolving to Meta
on Mac and Ctrl otherwise), undeclared modifiers being always
satisfied. -/
theorem c5_match_iff (isMacF enabled : Bool) (recentKeyCodes : List Nat) (event : KeyEvent)
    (command : KeyedCommand) (_helig : eligible command enabled event = true) :
    commandMatches isMacF recentKeyCodes command event = true ↔
      ((specSignature command).toList <:+: (joinNums recentKeyCodes).toList ∧
        (command.ctrl = true → (if isMacF then event.metaKey else event.ctrlKey) = true) ∧
        (command.shift = true → event.shiftKey = true) ∧
        (command.alt = true → event.altKey = true)) := by
  cases hc : command.ctrl <;> cases hs : command.shift <;> cases ha : command.alt <;>
    simp [commandMatches, hc, hs, ha, jsIncludes, specSignature] <;> tauto

/-- C5 witness: the match guard evaluated for command A after pressing g
then d. -/
theorem c5_match_witness :
    eligible cmdA true evD = true ∧
      (commandMatches false [71, 68] cmdA evD = true ↔
        ((specSignature cmdA).toList <:+: (joinNums [71, 68]).toList ∧
          (cmdA.ctrl = true → (if false then evD.metaKey else evD.ctrlKey) = true) ∧
          (cmdA.shift = true → evD.shiftKey = true) ∧
          (cmdA.alt = true → evD.altKey = true))) :=
  ⟨by decide, c5_match_iff false true [71, 68] evD cmdA (by decide)⟩

/-- C6: a command with disabled = true and forceEnable = false is never
eligible and its callback is never invoked across any step sequence; a
command with forceEnable = true is always eligible, whatever the
global-enabled flag and the event target; a command without forceEnable is
eligible iff it is not disabled, the global-enabled flag is true, and the
event target is not a text-entry control. -/
theorem c6_disabled_forceEnable (c : KeyedCommand) :
    (c.disabled = true → c.forceEnable = false →
      (∀ (enabled : Bool) (event : KeyEvent), eligible c enabled event = false) ∧
      (∀ (commandsArr : List Command) (enabled isMacF : Bool) (steps : List MStep),
        (∀ d : KeyedCommand, Command.keyed d ∈ commandsArr → d.cid = c.cid →
          d.disabled = true ∧ d.forceEnable = false) →
        c.cid ∉ (runSteps commandsArr enabled isMacF steps).2.1)) ∧
    (c.forceEnable = true →
      ∀ (enabled : Bool) (event : KeyEvent), eligible c enabled event = true) ∧
    (c.forceEnable = false →
      ∀ (enabled : Bool) (event : KeyEvent),
        (eligible c enabled event = true ↔
          (c.disabled = false ∧ enabled = true ∧ isInputEvent event = false))) := by
  refine ⟨?_, ?_, ?_⟩
  · intro hdis hfe
    constructor
    · intro enabled event
      simp [eligible, hdis, hfe]
    · intro commandsArr enabled isMacF steps hall hmem
      have hok := runStepsOk commandsArr enabled isMacF steps c.cid hmem
      unfold okLog at hok
      obtain ⟨d, hd, hcid, e, he⟩ := hok
      obtain ⟨hd1, hd2⟩ := hall d hd hcid
      unfold eligible at he
      rw [hd1, hd2] at he
      simp at he
  · intro hfe enabled event
    simp [eligible, hfe]
  · intro hfe enabled event
    unfold eligible
    rw [hfe]
    cases hdis : c.disabled <;> cases hen : enabled <;> cases hin : isInputEvent event <;> simp

/-- C6 witness: a disabled, non-force-enabled command is ineligible and
never invoked in a concrete run that presses its own key. -/
theorem c6_witness :
    eligible cmdDis true evD = false ∧
      cmdDis.cid ∉ (runSteps [Command.keyed cmdDis] true false [.key evD]).2.1 := by
  refine ⟨((c6_disabled_forceEnable cmdDis).1 rfl rfl).1 true evD, ?_⟩
  refine ((c6_disabled_forceEnable cmdDis).1 rfl rfl).2 [Command.keyed cmdDis] true false
    [.key evD] ?_
  intro d hd _
  simp only [List.mem_singleton, Command.keyed.injEq] at hd
  subst hd
  exact ⟨rfl, rfl⟩

/-- C7: the derived global-enabled flag is true iff no entry of the
availability overlay map has the value true (including the empty map). -/
theorem c7_global_enabled_iff (disabledMap : List (Nat × Bool)) :
    commandsEnabled disabledMap = true ↔ ¬∃ p ∈ disabledMap, p.2 = true := by
  unfold commandsEnabled
  rw [List.all_eq_true]
  constructor
  · rintro h ⟨p, hp, hpt⟩
    have hb := h p.2 (List.mem_map.mpr ⟨p, hp, rfl⟩)
    rw [hpt] at hb
    simp at hb
  · intro h x hx
    obtain ⟨p, hp, rfl⟩ := List.mem_map.mp hx
    cases hpt : p.2 with
    | true => exact absurd ⟨p, hp, hpt⟩ h
    | false => simp [hpt]

/-- C7 witness: the equivalence evaluated at a concrete overlay with one
false entry. -/
theorem c7_witness : commandsEnabled [(3, false)] = true :=
  (c7_global_enabled_iff [(3, false)]).mpr (by simp)

/-- C8: registering list A, then list B under a fresh id, then releasing
B's handle leaves the flattened view holding exactly A's commands in their
original order. -/
theorem c8_release_isolation (idA idB : Nat) (A B : List Command) (hne : idA ≠ idB) :
    flattenMap (mapDelete (mapSet (mapSet [] idA A) idB B) idB) = A := by
  have h1 : mapSet ([] : List (Nat × List Command)) idA A = [(idA, A)] := by
    simp [mapSet]
  have hcond : (([(idA, A)] : List (Nat × List Command)).any fun p => p.1 == idB) = false := by
    simp only [List.any_cons, List.any_nil, Bool.or_false]
    exact beq_eq_false_iff_ne.mpr hne
  have h2 : mapSet [(idA, A)] idB B = [(idA, A), (idB, B)] := by
    unfold mapSet
    rw [hcond]
    simp
  have h3 : mapDelete [(idA, A), (idB, B)] idB = [(idA, A)] := by
    unfold mapDelete
    simp only [List.filter_cons, List.filter_nil]
    rw [show (((idA, A) : Nat × List Command).1 != idB) = true from bne_iff_ne.mpr hne,
      show (((idB, B) : Nat × List Command).1 != idB) = false from bne_self_eq_false idB]
    simp
  rw [h1, h2, h3]
  simp [flattenMap]

/-- C8 witness: the isolation property evaluated at two concrete lists and
fresh ids 1, 2. -/
theorem c8_witness :
    flattenMap (mapDelete (mapSet (mapSet [] 1 [Command.keyed cmdA]) 2
      [Command.keyed cmdB]) 2) = [Command.keyed cmdA] :=
  c8_release_isolation 1 2 [Command.keyed cmdA] [Command.keyed cmdB] (by decide)

/-- C9: on every non-empty candidate list the winner selection returns
`some` member of the list (never `undefined`), and a resolution fired over
that list invokes exactly that member's callback, without fault, resetting
the handler state. -/
theorem c9_nonempty_winner (candidates : List KeyedCommand) (hist : List Nat) (rp : Bool)
    (h : candidates ≠ []) :
    ∃ c ∈ candidates, getHighestPriorityCommand candidates = some c ∧
      fireResolution ⟨hist, candidates, true, rp⟩ = (initialState, [c.cid], false) := by
  obtain ⟨c, hc, hg⟩ := ghpcSomeOfNeNil h
  refine ⟨c, hc, hg, ?_⟩
  unfold fireResolution
  dsimp only
  rw [if_pos rfl, hg]
  rfl

/-- C9 witness: the winner and fire outcome evaluated on a concrete
singleton candidate list. -/
theorem c9_witness :
    ([cmdA] : List KeyedCommand) ≠ [] ∧
      ∃ c ∈ ([cmdA] : List KeyedCommand), getHighestPriorityCommand [cmdA] = some c ∧
        fireResolution ⟨[71, 68], [cmdA], true, false⟩ = (initialState, [c.cid], false) :=
  ⟨by decide, c9_nonempty_winner [cmdA] [71, 68] false (by decide)⟩

/-- C10: the handler built from the current command map and global-enabled
flag starts with empty KeyHistory and empty CandidateSet and closes over a
snapshot of the flattened command list taken at build time; every cid it
ever logs belongs to a chorded command of that snapshot, so commands
registered after the rebuild are invisible to it and in-flight partial
chord state does not survive a rebuild. -/
theorem c10_rebuild_snapshot (commandMap : List (Nat × List Command)) (enabled : Bool) :
    (buildHandler commandMap enabled).2 = initialState ∧
    initialState.recentKeyCodes = [] ∧ initialState.validCommands = [] ∧
    (buildHandler commandMap enabled).1 = flattenMap commandMap ∧
    ∀ (isMacF : Bool) (steps : List MStep) (x : Nat),
      x ∈ (runSteps (buildHandler commandMap enabled).1 enabled isMacF steps).2.1 →
      ∃ d : KeyedCommand, Command.keyed d ∈ flattenMap commandMap ∧ d.cid = x := by
  refine ⟨rfl, rfl, rfl, rfl, ?_⟩
  intro isMacF steps x hx
  have hok := runStepsOk (buildHandler commandMap enabled).1 enabled isMacF steps x hx
  unfold okLog at hok
  obtain ⟨d, hd, hcid, -⟩ := hok
  exact ⟨d, hd, hcid⟩

/-- C10 witness: fresh state and snapshot membership evaluated on a
concrete map; pressing g then d logs cid 0, which belongs to the
snapshot. -/
theorem c10_witness :
    (buildHandler [(7, [Command.keyed cmdA])] true).2 = initialState ∧
      ∃ d : KeyedCommand, Command.keyed d ∈ flattenMap [(7, [Command.keyed cmdA])] ∧
        d.cid = 0 :=
  ⟨(c10_rebuild_snapshot [(7, [Command.keyed cmdA])] true).1,
    (c10_rebuild_snapshot [(7, [Command.keyed cmdA])] true).2.2.2.2 false
      [.key evG, .key evD, .resolve] 0 (by decide)⟩

/-- C4: `getHighestPriorityCommand` implements exactly the spec's
`winner(candidates)` policy: a single candidate is returned directly;
otherwise the candidates of maximal rank (keys + 10 per declared
modifier) are kept; a unique survivor is returned, else the survivors of
maximal modifier count are kept and the first in original insertion order
is returned. -/
theorem c4_winner_refines_spec (candidates : List KeyedCommand) :
    getHighestPriorityCommand candidates = winnerSpec candidates := by
  match candidates with
  | [] => rfl
  | [c] => rfl
  | a :: b :: t =>
    unfold getHighestPriorityCommand winnerSpec
    have hlen0 : ¬((a :: b :: t).length = 0) := by simp
    have hlen1 : ¬((a :: b :: t).length = 1) := by simp
    rw [if_neg hlen0, if_neg hlen1, if_neg hlen1]
    simp only [rankSpecEq, modifierCountSpecEq, List.map_map, List.filter_map,
      List.head?_map, Option.map_map, List.length_map, Function.comp_def,
      Option.map_id']
